import Mathlib

/-!
Verification of the WordDumb offset-aware annotation pipeline.

Shallow embedding of the core of the repository:
- `src/parse_job.py`  : segment extraction (`parse_mobi`, `parse_kfx`),
  lemma indexing (`find_lemma`) and named-entity location (`find_named_entity`);
- `src/x_ray_epub.py` : entity resolution (`add_entity`) and the
  cut-and-splice document rewrite (`insert_anchor_elements`);
- `src/data/wiktionary.py` : the dictionary extraction filter and
  sense-selection loop of `extract_wiktionary`.

Machine text is modelled as `List Char` (Python `str`, codepoint units) and
byte buffers as `List Nat` (each element a byte value).  External
collaborators (the rapidfuzz scorer, the NLTK tagger and morphy, the
knowledge caches) are parameters of the definitions, as the spec directs.
-/

/-- Soft hyphen, U+00AD (`­` in the source). -/
def softHyphen : Char := Char.ofNat 0xAD

/-- Python slice `l[a:b]` for non-negative bounds: clamps at the length and
yields `[]` when `a ≥ b`. -/
def pySlice (l : List Char) (a b : Nat) : List Char := (l.take b).drop a

/-- Model of Python's Unicode word character class `\w` on the character
ranges the repository's inputs use: ASCII alphanumerics, underscore, CJK
unified ideographs, hiragana, katakana and hangul syllables. -/
def pyWordChar (c : Char) : Bool :=
  c.isAlphanum || c = '_' ||
  (0x4E00 ≤ c.toNat && c.toNat ≤ 0x9FFF) ||
  (0x3040 ≤ c.toNat && c.toNat ≤ 0x30FF) ||
  (0xAC00 ≤ c.toNat && c.toNat ≤ 0xD7AF)

/-! ## UTF-8 encoding and the offset translator (spec §4.2)

`find_lemma` and `find_named_entity` convert a codepoint offset inside a
decoded segment back to a byte offset with
`start + len(text[:match.start()].encode('utf-8'))`. -/

/-- UTF-8 encoding of a single scalar value, as a list of byte values. -/
def encodeChar (c : Char) : List Nat :=
  if c.toNat < 0x80 then [c.toNat]
  else if c.toNat < 0x800 then
    [0xC0 + c.toNat / 64, 0x80 + c.toNat % 64]
  else if c.toNat < 0x10000 then
    [0xE0 + c.toNat / 4096, 0x80 + (c.toNat / 64) % 64, 0x80 + c.toNat % 64]
  else
    [0xF0 + c.toNat / 262144, 0x80 + (c.toNat / 4096) % 64,
     0x80 + (c.toNat / 64) % 64, 0x80 + c.toNat % 64]

/-- `s.encode('utf-8')` on a decoded text. -/
def utf8Encode (s : List Char) : List Nat := s.flatMap encodeChar

/-- `len(s.encode('utf-8'))`: the length in bytes of a codepoint prefix. -/
def utf8Length (s : List Char) : Nat := (utf8Encode s).length

/-- A byte is the lead byte of a UTF-8 sequence (not a continuation byte). -/
def utf8Lead (b : Nat) : Bool := decide (b < 0x80 ∨ 0xC0 ≤ b)

/-- Length in codepoints of a UTF-8 byte buffer: the number of lead bytes. -/
def countCodepoints (bs : List Nat) : Nat := bs.countP utf8Lead

/-! ## Dictionary extraction (`src/data/wiktionary.py`, spec §4.3) -/

def CJK_LANGS : List String := ["zh", "ja", "ko"]

def POS_TYPES : List String := ["adj", "adv", "noun", "phrase", "proverb", "verb"]

/-- One sense object of a Wiktionary entry line: `glosses`, `tags`, and the
`text` fields of its `examples` (an absent text is `none`). -/
structure WSense where
  glosses : List String
  tags : List String
  examples : List (Option String)
deriving DecidableEq

/-- One JSON line of the dictionary dump, restricted to the fields
`extract_wiktionary` reads. -/
structure WEntry where
  word : String
  pos : String
  senses : List WSense
  forms : List (Option String)
deriving DecidableEq

/-- `re.fullmatch(r"[\W\d]+", word)`: the word is nonempty and every
character is a non-word character or a digit. -/
def symbolDigitOnly (word : String) : Bool :=
  !word.toList.isEmpty && word.toList.all (fun c => !pyWordChar c || c.isDigit)

/-- `re.fullmatch(r"[a-zA-Z]+", word)`. -/
def asciiAlphaOnly (word : String) : Bool :=
  !word.toList.isEmpty && word.toList.all Char.isAlpha

/-- `len_limit = 2 if lang in CJK_LANGS else 3`. -/
def lenLimit (lang : String) : Nat := if CJK_LANGS.contains lang then 2 else 3

/-- The word-acceptance guard of `extract_wiktionary` (its two `continue`
tests before the sense loop, combined). -/
def wordFilter (lang word pos : String) : Bool :=
  POS_TYPES.contains pos && decide (lenLimit lang ≤ word.length) &&
  !symbolDigitOnly word && !(CJK_LANGS.contains lang && asciiAlphaOnly word)

/-- `re.sub(r"\([^)]+\)", "", gloss)`: delete every parenthesised group with
at least one non-`)` character, scanning left to right.  Fuel-indexed so the
definition computes by structural recursion; one unit of fuel is spent per
character, so the list's length is always enough. -/
def removeParensGo : Nat → List Char → List Char
  | 0, l => l
  | _ + 1, [] => []
  | fuel + 1, c :: rest =>
    if c = '(' then
      match rest.drop (rest.takeWhile (fun x => x != ')')).length,
            (rest.takeWhile (fun x => x != ')')).isEmpty with
      | ')' :: after, false => removeParensGo fuel after
      | _, _ => c :: removeParensGo fuel rest
    else c :: removeParensGo fuel rest

def removeParens (l : List Char) : List Char := removeParensGo l.length l

/-- Python `str.strip()` on the whitespace the glosses use. -/
def pyStrip (l : List Char) : List Char :=
  ((l.dropWhile Char.isWhitespace).reverse.dropWhile Char.isWhitespace).reverse

/-- `short_def`: remove parenthesised groups, split at the first `;` or `,`,
keep the first field, and strip it. -/
def shortDef (gloss : String) : String :=
  String.mk (pyStrip ((removeParens gloss.toList).takeWhile (fun c => c != ';' && c != ',')))

/-- The example-sentence loop: the first example whose text is present,
non-empty (Python truthiness) and not `"(obsolete)"`. -/
def firstExample : List (Option String) → Option String
  | [] => none
  | none :: rest => firstExample rest
  | some s :: rest =>
    if s != "" && s != "(obsolete)" then some s else firstExample rest

/-- A record appended to `words`: `(enabled, word, short_def(gloss), gloss,
example_sent, forms)`. -/
abbrev WordRec := Bool × String × String × String × Option String × List String

/-- `enabled if not kindle_lemmas else word in kindle_lemmas` (an absent or
empty lemma set is falsy). -/
def enabledField (kindle : Option (List String)) (enabled : Bool) (word : String) : Bool :=
  match kindle with
  | none => enabled
  | some [] => enabled
  | some ks => ks.contains word

/-- The sense loop of `extract_wiktionary` (lines 60–85): one record per
sense that has glosses and is not tagged plural/alternative; `enabled`
becomes false after the first record. -/
def senseLoop (kindle : Option (List String)) (word : String) (forms : List String) :
    List WSense → Bool → List WordRec
  | [], _ => []
  | s :: rest, enabled =>
    match s.glosses with
    | [] => senseLoop kindle word forms rest enabled
    | g :: _ =>
      if s.tags.contains "plural" || s.tags.contains "alternative" then
        senseLoop kindle word forms rest enabled
      else
        (enabledField kindle enabled word, word, shortDef g, g, firstExample s.examples, forms) ::
          senseLoop kindle word forms rest false

/-- The inflected-forms set: present, at least `len_limit` long and distinct
from the word.  Python's `set` is modelled in first-insertion order (no
claim depends on the order). -/
def formsOf (lang : String) (e : WEntry) : List String :=
  ((e.forms.filterMap id).filter
    (fun f => f != "" && decide (lenLimit lang ≤ f.length) && f != e.word)).eraseDups

/-- Lines 40–85 of `extract_wiktionary`: processing of one JSON line into
the records appended to `words`. -/
def processEntry (lang : String) (kindle : Option (List String)) (e : WEntry) : List WordRec :=
  if wordFilter lang e.word e.pos then senseLoop kindle e.word (formsOf lang e) e.senses true
  else []

/-- A sense that the loop keeps: non-empty glosses, not tagged plural or
alternative. -/
def senseKept (s : WSense) : Bool :=
  !s.glosses.isEmpty && !(s.tags.contains "plural" || s.tags.contains "alternative")

def keptSenses (senses : List WSense) : List WSense := senses.filter senseKept

/-- The data part (everything but the enabled flag) of the record emitted
for a kept sense. -/
def senseRecord (word : String) (forms : List String) (s : WSense) :
    String × String × String × Option String × List String :=
  (word, shortDef (s.glosses.headD ""), s.glosses.headD "", firstExample s.examples, forms)

/-- Enabled flags of the emitted records: the first carries the incoming
flag, all later ones are false. -/
def enabledFlags (e : Bool) : Nat → List Bool
  | 0 => []
  | m + 1 => e :: List.replicate m false

/-- Concrete entry with two senses, both with a non-empty gloss. -/
def exEntryC7 : WEntry :=
  ⟨"runner", "noun", [⟨["first gloss"], [], []⟩, ⟨["second gloss"], [], []⟩], []⟩

/-! ## Entity resolution (`src/x_ray_epub.py`, spec §4.5) -/

/-- Modelled from the spec: `FUZZ_THRESHOLD` is imported from
`mediawiki.py`, which is not under `src/`; the spec's entity-dedup property
fixes the similarity threshold at 90. -/
def FUZZ_THRESHOLD : Nat := 90

/-- Model of `rapidfuzz.process.extractOne` without a cutoff: the
best-scoring choice, the earliest winning ties.  The similarity scorer is an
external collaborator, so it is a parameter. -/
def bestMatch (score : String → String → Nat) (q : String) :
    List String → Option (String × Nat)
  | [] => none
  | k :: rest =>
    match bestMatch score q rest with
    | none => some (k, score q k)
    | some (k2, s2) => if s2 ≤ score q k then some (k, score q k) else some (k2, s2)

/-- `extractOne(entity, keys, score_cutoff=...)`: the best match provided
its score reaches the cutoff, else `None`. -/
def extractOne (score : String → String → Nat) (q : String) (keys : List String)
    (cutoff : Nat) : Option (String × Nat) :=
  match bestMatch score q keys with
  | none => none
  | some (k, s) => if cutoff ≤ s then some (k, s) else none

/-- The value stored in `self.entities[key]`. -/
structure EntityData where
  id : Nat
  label : String
  quote : String
deriving DecidableEq

/-- `self.entities[k]["id"]`; the default 0 is never reached because
`extractOne` only returns keys present in the table. -/
def entityIdOf (entities : List (String × EntityData)) (k : String) : Nat :=
  match entities.find? (fun p => p.1 == k) with
  | some p => p.2.id
  | none => 0

/-- An occurrence tuple `(start, end, entity, entity_id)`; Python's `end`
is `stop` here, `end` being reserved in Lean. -/
structure Occ where
  start : Nat
  stop : Nat
  entity : List Char
  entityId : Nat
deriving DecidableEq

/-- The Entity-Resolver state of `X_Ray_EPUB`: the id counter, the entity
table in insertion order, and the occurrence lists (flattened into one
append-ordered list tagged with the part path). -/
structure XRayEPUB where
  entity_id : Nat
  entities : List (String × EntityData)
  occurrences : List (String × Occ)
deriving DecidableEq

/-- `X_Ray_EPUB.add_entity`. -/
def add_entity (score : String → String → Nat) (st : XRayEPUB)
    (entity ner_label quote : String) (start stop : Nat) (xhtml_path : String) : XRayEPUB :=
  match extractOne score entity (st.entities.map Prod.fst) FUZZ_THRESHOLD with
  | some (k, _) =>
    { st with occurrences :=
        st.occurrences ++ [(xhtml_path, ⟨start, stop, entity.toList, entityIdOf st.entities k⟩)] }
  | none =>
    { entity_id := st.entity_id + 1,
      entities := st.entities ++ [(entity, ⟨st.entity_id, ner_label, quote⟩)],
      occurrences := st.occurrences ++ [(xhtml_path, ⟨start, stop, entity.toList, st.entity_id⟩)] }

/-- The Entity-Resolver invariant: ids in the table are 0-based, dense and
in first-seen order (so the counter grows by exactly 1 per new entity and
ids are never reused), and every occurrence references an id in the table.
-/
def XRayInv (st : XRayEPUB) : Prop :=
  st.entities.map (fun p => p.2.id) = List.range st.entity_id ∧
  ∀ o ∈ st.occurrences, o.2.entityId < st.entity_id

/-- The spec's entity-dedup scenario: prior entity "Mr. Darcy" with id 0. -/
def darcyState : XRayEPUB :=
  ⟨1, [("Mr. Darcy", ⟨0, "PERSON", "Mr. Darcy"⟩)], []⟩

/-! ## Cut-and-splice document rewrite (`insert_anchor_elements`, spec §4.6) -/

/-- The text of the anchor element before the wrapped entity text:
`<a epub:type="noteref" href="x_ray.xhtml#` + id + `">`. -/
def anchorOpen (id : Nat) : List Char :=
  "<a epub:type=\"noteref\" href=\"x_ray.xhtml#".toList ++ (toString id).toList ++ "\">".toList

def anchorClose : List Char := "</a>".toList

/-- The full inserted element: opening text, wrapped entity text, closing
tag. -/
def anchorElem (o : Occ) : List Char := anchorOpen o.entityId ++ o.entity ++ anchorClose

/-- The rewrite loop of `insert_anchor_elements` over one part's body and
its occurrence list: for each occurrence append the untouched text since the
previous cut point and the anchor element, finally append the untouched
tail. -/
def insertGo (body : List Char) : List Occ → Nat → List Char
  | [], lastEnd => body.drop lastEnd
  | o :: rest, lastEnd =>
    pySlice body lastEnd o.start ++ anchorElem o ++ insertGo body rest o.stop

def insert_anchor_elements (body : List Char) (occs : List Occ) : List Char :=
  insertGo body occs 0

/-- A well-formed occurrence list over a base buffer: sorted ascending,
non-overlapping, in bounds, and each occurrence's text is the literal slice
of the buffer it names. -/
def validOccs (body : List Char) : Nat → List Occ → Bool
  | _, [] => true
  | lastEnd, o :: rest =>
    decide (lastEnd ≤ o.start) && decide (o.start ≤ o.stop) &&
    decide (o.stop ≤ body.length) && (o.entity == pySlice body o.start o.stop) &&
    validOccs body o.stop rest

/-- Locate each inserted marker's wrapped text in the rewritten output and
reconstruct the occurrence triples.  `base` is the output position where the
region of the remaining occurrences begins and `lastEnd` its original-buffer
counterpart.  The wrapped text is read out of the output itself and the
original offsets are recovered by subtracting the lengths inserted so far.
-/
def recoverGo (out : List Char) : List Occ → Nat → Nat → List (Nat × Nat × List Char)
  | [], _, _ => []
  | o :: rest, lastEnd, base =>
    let pre := (anchorOpen o.entityId).length
    let wStart := base + (o.start - lastEnd) + pre
    let t := pySlice out wStart (wStart + (o.stop - o.start))
    let recStart := wStart + lastEnd - base - pre
    (recStart, recStart + t.length, t) ::
      recoverGo out rest o.stop (wStart + (o.stop - o.start) + anchorClose.length)

def recoverTriples (out : List Char) (occs : List Occ) : List (Nat × Nat × List Char) :=
  recoverGo out occs 0 0

/-! ## Segment extraction (`parse_mobi`, `parse_kfx`, spec §4.1) -/

/-- The maximal run of bytes that are neither `<` (60) nor `>` (62):
`[^<>]+` matched greedily. -/
def runOf (rest : List Nat) : List Nat :=
  rest.takeWhile (fun x => decide (x ≠ 60) && decide (x ≠ 62))

/-- `re.finditer(b'>[^<>]+<', html)`: at a `>` (byte 62) take the maximal
run of bytes that are neither `<` (60) nor `>`; if the run is non-empty and
followed by a `<`, that is a match `(position, run)` and scanning resumes
after the consumed `<`; otherwise scanning advances one byte.  Fuel-indexed
(at most one unit of fuel per byte) for structural recursion. -/
def scanGo : Nat → List Nat → Nat → List (Nat × List Nat)
  | 0, _, _ => []
  | _ + 1, [], _ => []
  | fuel + 1, b :: rest, pos =>
    if b = 62 then
      if (runOf rest).length ≠ 0 ∧ (rest.drop (runOf rest).length).head? = some 60 then
        (pos, runOf rest) :: scanGo fuel (rest.drop ((runOf rest).length + 1))
          (pos + (runOf rest).length + 2)
      else scanGo fuel rest (pos + 1)
    else scanGo fuel rest (pos + 1)

/-- `parse_mobi`: decoding the container is the external reader's job; the
extractor scans the HTML byte buffer and yields
`(match.start() + 1, match.group(0)[1:-1])` per match. -/
def parse_mobi (html : List Nat) : List (Nat × List Nat) :=
  (scanGo (html.length + 1) html 0).map (fun m => (m.1 + 1, m.2))

/-- `parse_kfx`: yields `(entry['position'], entry['content'])` verbatim
from the external converter's JSON content entries. -/
def parse_kfx (entries : List (Nat × String)) : List (Nat × String) :=
  entries.map (fun e => (e.1, e.2))

/-! ## Named-entity location (`find_named_entity`, spec §4.5) -/

/-- `text[j]` is a word character; out of range counts as non-word. -/
def wordAt (text : List Char) (j : Nat) : Bool :=
  match text[j]? with
  | some c => pyWordChar c
  | none => false

/-- Python `\b` at position `j`: the word-ness of the two sides differs (a
virtual non-word character sits before position 0 and after the end). -/
def boundaryAt (text : List Char) (j : Nat) : Bool :=
  (if j = 0 then false else wordAt text (j - 1)) != wordAt text j

/-- The token occurs literally at position `i`. -/
def matchAt (text tok : List Char) (i : Nat) : Bool :=
  (text.drop i).take tok.length == tok

/-- `re.search(r'\b' + token + r'\b', text)` succeeds at position `i`. -/
def neCond (text tok : List Char) (i : Nat) : Bool :=
  boundaryAt text i && matchAt text tok i && boundaryAt text (i + tok.length)

def firstBoundaryMatchGo (text tok : List Char) : Nat → Nat → Option Nat
  | 0, _ => none
  | fuel + 1, i =>
    if neCond text tok i then some i else firstBoundaryMatchGo text tok fuel (i + 1)

/-- The first word-boundary match position of the token in the text. -/
def firstBoundaryMatch (text tok : List Char) : Option Nat :=
  firstBoundaryMatchGo text tok (text.length + 1) 0

/-- The Kindle-path X-Ray state: id counter, entity table in insertion
order, occurrence list. -/
structure NEState where
  entity_id : Nat
  entities : List (String × EntityData)
  occurrences : List Occ
deriving DecidableEq

/-- Modelled from the spec: `X_Ray.search` (`src/x_ray.py` is not under
`src/`).  Per spec §4.5 and §8 it resolves the located span against the
known entities by approximate matching with the fixed threshold — folding
into the best match at or above it, else creating a fresh
strictly-incrementing id with the span's text as canonical key and the rest
of the segment as representative quote — and records the occurrence
`(start, start + token length in the segment's offset unit, token,
entity_id)`. -/
def neSearch (score : String → String → Nat) (st : NEState) (token label : String)
    (tstart tokenLen : Nat) (quote : String) : NEState :=
  match extractOne score token (st.entities.map Prod.fst) FUZZ_THRESHOLD with
  | some (k, _) =>
    { st with occurrences :=
        st.occurrences ++ [⟨tstart, tstart + tokenLen, token.toList, entityIdOf st.entities k⟩] }
  | none =>
    { entity_id := st.entity_id + 1,
      entities := st.entities ++ [(token, ⟨st.entity_id, label, quote⟩)],
      occurrences := st.occurrences ++ [⟨tstart, tstart + tokenLen, token.toList, st.entity_id⟩] }

/-- The span loop of `find_named_entity`: the tagger output (tree leaves
joined to a token text, plus label) is an external collaborator, so the
span list is a parameter; `records` is the per-segment dedup set, which a
span joins before the literal search, so an unlocatable span still blocks
later verbatim duplicates. -/
def findNEGo (score : String → String → Nat) (start : Nat) (text : List Char)
    (isBytes : Bool) : List (String × String) → List String → NEState → NEState
  | [], _, st => st
  | (token, label) :: rest, records, st =>
    if token.length < 3 ∨ token ∈ records then
      findNEGo score start text isBytes rest records st
    else
      match firstBoundaryMatch text token.toList with
      | none => findNEGo score start text isBytes rest (records ++ [token]) st
      | some i =>
        findNEGo score start text isBytes rest (records ++ [token])
          (neSearch score st token label
            (start + (if isBytes then utf8Length (text.take i) else i))
            (if isBytes then utf8Length token.toList else token.length)
            (String.mk (text.drop i)))

def find_named_entity (score : String → String → Nat) (start : Nat) (text : List Char)
    (isBytes : Bool) (spans : List (String × String)) (st : NEState) : NEState :=
  findNEGo score start text isBytes spans [] st

/-- The spec's end-to-end scenario segment text. -/
def wizardSeg : String := "The Wizard of Oz lived in Kansas."

/-- Byte values of an ASCII string. -/
def asciiBytes (s : String) : List Nat := s.toList.map Char.toNat

/-- The binary buffer of the end-to-end scenario: the `>` sits at byte
offset 1000. -/
def wizardHtml : List Nat :=
  List.replicate 1000 120 ++ asciiBytes (">" ++ wizardSeg ++ "<")

/-! ## Lemma indexing (`find_lemma`, spec §4.4) -/

/-- `[a-zA-Z­]`: the token character class of `find_lemma`. -/
def lemmaClass (c : Char) : Bool :=
  (decide ('a' ≤ c) && decide (c ≤ 'z')) || (decide ('A' ≤ c) && decide (c ≤ 'Z')) ||
  c == softHyphen

/-- `re.finditer(r'[a-zA-Z­]{3,}', text)`: the maximal runs of class
characters of length at least 3, paired with their start positions.
Fuel-indexed (at most one unit of fuel per consumed character). -/
def tokenizeGo : Nat → List Char → Nat → List (Nat × List Char)
  | 0, _, _ => []
  | _ + 1, [], _ => []
  | fuel + 1, c :: rest, i =>
    if lemmaClass c then
      if 3 ≤ (c :: rest.takeWhile lemmaClass).length then
        (i, c :: rest.takeWhile lemmaClass) ::
          tokenizeGo fuel (rest.drop (rest.takeWhile lemmaClass).length)
            (i + (c :: rest.takeWhile lemmaClass).length)
      else
        tokenizeGo fuel (rest.drop (rest.takeWhile lemmaClass).length)
          (i + (c :: rest.takeWhile lemmaClass).length)
    else tokenizeGo fuel rest (i + 1)

def tokenize (text : List Char) : List (Nat × List Char) :=
  tokenizeGo (text.length + 1) text 0

/-- `match.group(0).replace('­', '').lower()`: the lookup key. -/
def normKey (t : List Char) : List Char :=
  (t.filter (fun c => c != softHyphen)).map Char.toLower

/-- The per-match body of `find_lemma`: normalise, canonicalise through the
external `wn.morphy`, look the result up in the lemma table, and on a hit
record the offset computed from the match's own start in the original
unmodified segment text (bytes for a byte segment, codepoints otherwise)
together with the lemma's data. -/
def processToken {α : Type} (morphy : String → Option String) (lemmas : List (String × α))
    (start : Nat) (text : List Char) (isBytes : Bool) (it : Nat × List Char) :
    Option (Nat × α) :=
  match morphy (String.mk (normKey it.2)) with
  | none => none
  | some lem =>
    match lemmas.find? (fun p => p.1 == lem) with
    | some p => some (start + (if isBytes then utf8Length (text.take it.1) else it.1), p.2)
    | none => none

def find_lemma {α : Type} (morphy : String → Option String) (lemmas : List (String × α))
    (start : Nat) (text : List Char) (isBytes : Bool) : List (Nat × α) :=
  (tokenize text).filterMap (processToken morphy lemmas start text isBytes)

/-- The lemma record a token resolves to, independent of its position:
morphy of the normalised key, then the table lookup. -/
def lookupRes {α : Type} (morphy : String → Option String) (lemmas : List (String × α))
    (t : List Char) : Option α :=
  match morphy (String.mk (normKey t)) with
  | none => none
  | some lem => (lemmas.find? (fun p => p.1 == lem)).map (fun p => p.2)

/-- Character lists that agree up to ASCII letter case, character by
character. -/
def caseEquiv : List Char → List Char → Bool
  | [], [] => true
  | a :: as, b :: bs => a.toLower == b.toLower && caseEquiv as bs
  | _, _ => false

/-- Tokens that differ only in letter case or in embedded soft hyphens. -/
def tokensEquiv (t1 t2 : List Char) : Bool :=
  caseEquiv (t1.filter (fun c => c != softHyphen)) (t2.filter (fun c => c != softHyphen))

/-- Codepoints are below 0x110000. -/
theorem char_toNat_lt (c : Char) : c.toNat < 1114112 := by
  have h := c.valid
  have he : c.toNat = c.val.toNat := rfl
  rcases h with h | ⟨h1, h2⟩
  · have hv : c.val.toNat < 55296 := h
    omega
  · have hv : c.val.toNat < 1114112 := h2
    omega

theorem countCodepoints_encodeChar (c : Char) : countCodepoints (encodeChar c) = 1 := by
  have h := char_toNat_lt c
  unfold encodeChar
  split_ifs with h1 h2 h3
  · have e1 : utf8Lead c.toNat = true := by
      simp only [utf8Lead, decide_eq_true_eq]; omega
    simp [countCodepoints, e1]
  · have e1 : utf8Lead (0xC0 + c.toNat / 64) = true := by
      simp only [utf8Lead, decide_eq_true_eq]; omega
    have e2 : utf8Lead (0x80 + c.toNat % 64) = false := by
      simp only [utf8Lead, decide_eq_false_iff_not]; omega
    simp [countCodepoints, e1, e2]
  · have e1 : utf8Lead (0xE0 + c.toNat / 4096) = true := by
      simp only [utf8Lead, decide_eq_true_eq]; omega
    have e2 : utf8Lead (0x80 + (c.toNat / 64) % 64) = false := by
      simp only [utf8Lead, decide_eq_false_iff_not]; omega
    have e3 : utf8Lead (0x80 + c.toNat % 64) = false := by
      simp only [utf8Lead, decide_eq_false_iff_not]; omega
    simp [countCodepoints, e1, e2, e3]
  · have e1 : utf8Lead (0xF0 + c.toNat / 262144) = true := by
      simp only [utf8Lead, decide_eq_true_eq]; omega
    have e2 : utf8Lead (0x80 + (c.toNat / 4096) % 64) = false := by
      simp only [utf8Lead, decide_eq_false_iff_not]; omega
    have e3 : utf8Lead (0x80 + (c.toNat / 64) % 64) = false := by
      simp only [utf8Lead, decide_eq_false_iff_not]; omega
    have e4 : utf8Lead (0x80 + c.toNat % 64) = false := by
      simp only [utf8Lead, decide_eq_false_iff_not]; omega
    simp [countCodepoints, e1, e2, e3, e4]

theorem countCodepoints_utf8Encode (s : List Char) : countCodepoints (utf8Encode s) = s.length := by
  induction s with
  | nil => rfl
  | cons c rest ih =>
    simp only [utf8Encode, List.flatMap_cons, countCodepoints, List.countP_append]
    have h1 : countCodepoints (encodeChar c) = 1 := countCodepoints_encodeChar c
    simp only [countCodepoints] at h1 ih
    simp only [utf8Encode] at ih
    simp [h1, ih]
    omega

theorem utf8Encode_append (s t : List Char) : utf8Encode (s ++ t) = utf8Encode s ++ utf8Encode t := by
  simp [utf8Encode]

/-- **C5.** Offset Translator round-trip: for every text buffer and every valid
codepoint offset `c` within it, converting `c` to a byte offset by
`byte_offset = anchor_byte_offset + length_in_bytes(codepoint prefix)` and
converting that byte offset back by
`codepoint_offset = anchor_codepoint_offset + length_in_codepoints(byte prefix)`
yields `c` exactly. -/
theorem offset_translator_roundtrip (text : List Char) (c ab acp : Nat)
    (h : c ≤ text.length) :
    acp + countCodepoints ((utf8Encode text).take ((ab + utf8Length (text.take c)) - ab)) = acp + c := by
  have hsplit : utf8Encode text = utf8Encode (text.take c) ++ utf8Encode (text.drop c) := by
    rw [← utf8Encode_append, List.take_append_drop]
  have hcancel : (ab + utf8Length (text.take c)) - ab = utf8Length (text.take c) := by omega
  rw [hcancel, hsplit]
  have htake : (utf8Encode (text.take c) ++ utf8Encode (text.drop c)).take (utf8Length (text.take c)) = utf8Encode (text.take c) := by
    exact List.take_left (utf8Encode (text.take c)) (utf8Encode (text.drop c))
  rw [htake, countCodepoints_utf8Encode]
  have : (text.take c).length = c := by
    simp [List.length_take]
    omega
  omega

/-- Witness for C5 at a concrete buffer mixing 1-, 2- and 3-byte characters. -/
theorem offset_translator_roundtrip_witness :
    (2 : Nat) ≤ ("aé好x".toList).length ∧
    3 + countCodepoints ((utf8Encode "aé好x".toList).take ((10 + utf8Length ("aé好x".toList.take 2)) - 10)) = 3 + 2 := by
  refine ⟨by decide, offset_translator_roundtrip "aé好x".toList 2 10 3 (by decide)⟩

/-! ## Dictionary extraction theorems -/

theorem firstExample_eq_find (exs : List (Option String)) :
    firstExample exs = (exs.filterMap id).find? (fun s => s != "" && s != "(obsolete)") := by
  induction exs with
  | nil => rfl
  | cons o rest ih =>
    cases o with
    | none => simp [firstExample, ih]
    | some s =>
      by_cases hp : (s != "" && s != "(obsolete)") = true
      · simp [firstExample, hp, List.find?]
      · simp only [Bool.not_eq_true] at hp
        simp [firstExample, hp, List.find?, ih]

theorem enabledFlags_false (n : Nat) : enabledFlags false n = List.replicate n false := by
  cases n with
  | zero => rfl
  | succ m => simp [enabledFlags, List.replicate]

theorem senseLoop_kept (word : String) (forms : List String) :
    ∀ (senses : List WSense) (e : Bool),
      (senseLoop none word forms senses e).map (fun r => r.2) =
        (keptSenses senses).map (senseRecord word forms) ∧
      (senseLoop none word forms senses e).map (fun r => r.1) =
        enabledFlags e (keptSenses senses).length := by
  intro senses
  induction senses with
  | nil => intro e; simp [senseLoop, keptSenses, enabledFlags]
  | cons s rest ih =>
    intro e
    cases hg : s.glosses with
    | nil =>
      have hk : senseKept s = false := by simp [senseKept, hg]
      simp only [senseLoop, hg, keptSenses, List.filter_cons, hk]
      exact ih e
    | cons g gs =>
      by_cases ht : (s.tags.contains "plural" || s.tags.contains "alternative") = true
      · have hk : senseKept s = false := by unfold senseKept; rw [ht]; simp
        simp only [senseLoop, hg, ht, if_true, keptSenses, List.filter_cons, hk]
        exact ih e
      · have ht' : (s.tags.contains "plural" || s.tags.contains "alternative") = false := by
          simp only [Bool.not_eq_true] at ht; exact ht
        have hk : senseKept s = true := by unfold senseKept; rw [ht']; simp [hg]
        simp only [senseLoop, hg, ht', Bool.false_eq_true, if_false, keptSenses,
          List.filter_cons, hk, if_true, List.map_cons, List.length_cons]
        refine ⟨?_, ?_⟩
        · have := (ih false).1
          simp only [keptSenses] at this
          simp [senseRecord, hg, enabledField, this]
        · have h2 := (ih false).2
          simp only [keptSenses] at h2
          simp only [h2, enabledFlags_false, enabledField]
          simp [enabledFlags]

/-- **C7 counterexample.** The claim says only the first sense with a
non-empty gloss is kept — exactly one gloss record per accepted word.  On an
entry with two qualifying senses, `extract_wiktionary` appends two records,
one per sense, keeping both glosses. -/
theorem sense_selection_counterexample :
    (processEntry "en" none exEntryC7).length = 2 ∧
    (processEntry "en" none exEntryC7).map (fun r => r.2.2.2.1) =
      ["first gloss", "second gloss"] := by
  constructor
  · decide
  · decide

/-- **C7 (amended).** For every accepted entry, the sense loop emits one
gloss record per sense that has a non-empty gloss list and is not tagged
"plural" or "alternative", in order; with no Kindle-lemma filter only the
first such record is marked enabled; each record carries the sense's first
gloss, and its example is the first example whose text is present, non-empty
and not "(obsolete)", else none. -/
theorem sense_selection_amended (word : String) (forms : List String)
    (senses : List WSense) (e : Bool) :
    (senseLoop none word forms senses e).map (fun r => r.2) =
      (keptSenses senses).map (senseRecord word forms) ∧
    (senseLoop none word forms senses e).map (fun r => r.1) =
      enabledFlags e (keptSenses senses).length ∧
    (∀ exs, firstExample exs =
      (exs.filterMap id).find? (fun s => s != "" && s != "(obsolete)")) := by
  refine ⟨(senseLoop_kept word forms senses e).1, (senseLoop_kept word forms senses e).2, ?_⟩
  intro exs
  exact firstExample_eq_find exs

/-- **C8.** The surface-form length floor is 2 codepoints for CJK-family
languages and 3 otherwise; a 2-character CJK candidate is accepted, a
2-character non-CJK candidate is rejected, a 3-character non-CJK candidate
is accepted; and for CJK targets any candidate of pure ASCII letters is
rejected. -/
theorem min_length_and_script_filter :
    (∀ lang word pos, word.length < (if CJK_LANGS.contains lang then 2 else 3) →
      wordFilter lang word pos = false) ∧
    wordFilter "zh" "你好" "noun" = true ∧
    wordFilter "en" "ab" "noun" = false ∧
    wordFilter "en" "abc" "noun" = true ∧
    (∀ lang word pos, CJK_LANGS.contains lang = true → asciiAlphaOnly word = true →
      wordFilter lang word pos = false) := by
  refine ⟨?_, by decide, by decide, by decide, ?_⟩
  · intro lang word pos h
    have hd : decide (lenLimit lang ≤ word.length) = false := by
      simp only [decide_eq_false_iff_not, lenLimit]
      by_cases hc : CJK_LANGS.contains lang = true
      · simp only [hc, if_true] at h ⊢; omega
      · simp only [Bool.not_eq_true] at hc
        simp only [hc, Bool.false_eq_true, if_false] at h ⊢; omega
    simp [wordFilter, hd]
  · intro lang word pos h1 h2
    have h1m : lang ∈ CJK_LANGS := by simpa using h1
    simp [wordFilter, h1m, h2]

/-- Witness for C8: the length-floor hypothesis at "xy" over a non-CJK
language, and the ASCII-script hypothesis at "word" over a CJK language. -/
theorem min_length_and_script_filter_witness :
    ("xy".length < (if CJK_LANGS.contains "en" then 2 else 3) ∧
      wordFilter "en" "xy" "noun" = false) ∧
    (CJK_LANGS.contains "ja" = true ∧ asciiAlphaOnly "word" = true ∧
      wordFilter "ja" "word" "noun" = false) := by
  refine ⟨⟨by decide, min_length_and_script_filter.1 "en" "xy" "noun" (by decide)⟩,
    ⟨by decide, by decide,
      min_length_and_script_filter.2.2.2.2 "ja" "word" "noun" (by decide) (by decide)⟩⟩

/-! ## Entity resolution theorems -/

theorem bestMatch_mem (score : String → String → Nat) (q : String) :
    ∀ (keys : List String) (k : String) (s : Nat),
      bestMatch score q keys = some (k, s) → k ∈ keys := by
  intro keys
  induction keys with
  | nil => intro k s h; simp [bestMatch] at h
  | cons a rest ih =>
    intro k s h
    simp only [bestMatch] at h
    cases hb : bestMatch score q rest with
    | none =>
      rw [hb] at h
      have h2 : some (a, score q a) = some (k, s) := h
      simp only [Option.some.injEq, Prod.mk.injEq] at h2
      simp [h2.1]
    | some pr =>
      obtain ⟨k2, s2⟩ := pr
      rw [hb] at h
      have h2 : (if s2 ≤ score q a then some (a, score q a) else some (k2, s2)) = some (k, s) := h
      by_cases hc : s2 ≤ score q a
      · rw [if_pos hc] at h2
        simp only [Option.some.injEq, Prod.mk.injEq] at h2
        simp [h2.1]
      · rw [if_neg hc] at h2
        simp only [Option.some.injEq, Prod.mk.injEq] at h2
        have hm := ih k2 s2 hb
        rw [h2.1] at hm
        simp [hm]

theorem extractOne_mem (score : String → String → Nat) (q : String) (keys : List String)
    (cutoff : Nat) (k : String) (s : Nat)
    (h : extractOne score q keys cutoff = some (k, s)) : k ∈ keys := by
  unfold extractOne at h
  cases hb : bestMatch score q keys with
  | none => rw [hb] at h; simp at h
  | some pr =>
    obtain ⟨k2, s2⟩ := pr
    rw [hb] at h
    have h2 : (if cutoff ≤ s2 then some (k2, s2) else none) = some (k, s) := h
    by_cases hc : cutoff ≤ s2
    · rw [if_pos hc] at h2
      simp only [Option.some.injEq, Prod.mk.injEq] at h2
      rw [← h2.1]
      exact bestMatch_mem score q keys k2 s2 hb
    · rw [if_neg hc] at h2; simp at h2

theorem entityIdOf_lt (entities : List (String × EntityData)) (n : Nat) (k : String)
    (hids : entities.map (fun p => p.2.id) = List.range n)
    (hk : k ∈ entities.map Prod.fst) : entityIdOf entities k < n := by
  obtain ⟨p, hp, hpk⟩ := List.mem_map.1 hk
  cases hf : entities.find? (fun p => p.1 == k) with
  | none =>
    exfalso
    have hnone := List.find?_eq_none.1 hf p hp
    simp [hpk] at hnone
  | some p2 =>
    have hp2mem := List.mem_of_find?_eq_some hf
    have hin : p2.2.id ∈ entities.map (fun p => p.2.id) :=
      List.mem_map_of_mem (fun p => p.2.id) hp2mem
    rw [hids, List.mem_range] at hin
    simpa [entityIdOf, hf] using hin

theorem add_entity_fold (score : String → String → Nat) (st : XRayEPUB)
    (entity label quote : String) (s e : Nat) (path : String) (k : String) (sc : Nat)
    (h : extractOne score entity (st.entities.map Prod.fst) FUZZ_THRESHOLD = some (k, sc)) :
    add_entity score st entity label quote s e path =
      { st with occurrences :=
          st.occurrences ++ [(path, ⟨s, e, entity.toList, entityIdOf st.entities k⟩)] } := by
  unfold add_entity
  rw [h]

theorem add_entity_new (score : String → String → Nat) (st : XRayEPUB)
    (entity label quote : String) (s e : Nat) (path : String)
    (h : extractOne score entity (st.entities.map Prod.fst) FUZZ_THRESHOLD = none) :
    add_entity score st entity label quote s e path =
      { entity_id := st.entity_id + 1,
        entities := st.entities ++ [(entity, ⟨st.entity_id, label, quote⟩)],
        occurrences := st.occurrences ++ [(path, ⟨s, e, entity.toList, st.entity_id⟩)] } := by
  unfold add_entity
  rw [h]

/-- **C1.** `add_entity`: if the best fuzzy match over the known canonical
keys reaches the threshold, the candidate is folded into that entity (the
table — keys, labels, quotes — and the id counter are unchanged, and the
occurrence carries the matched entity's id); otherwise a new entity is
created whose id is the current counter, with the candidate's text as
canonical key and quote.  In particular, from prior entity "Mr. Darcy"
(id 0) and threshold 90, a candidate "Darcy" scoring at least 90 resolves to
id 0, and a below-threshold candidate "Elizabeth" creates entity id 1. -/
theorem add_entity_resolution (score : String → String → Nat) (st : XRayEPUB)
    (entity label quote : String) (s e : Nat) (path : String) :
    (∀ k sc, extractOne score entity (st.entities.map Prod.fst) FUZZ_THRESHOLD = some (k, sc) →
      (add_entity score st entity label quote s e path).entities = st.entities ∧
      (add_entity score st entity label quote s e path).entity_id = st.entity_id ∧
      (add_entity score st entity label quote s e path).occurrences =
        st.occurrences ++ [(path, ⟨s, e, entity.toList, entityIdOf st.entities k⟩)]) ∧
    (extractOne score entity (st.entities.map Prod.fst) FUZZ_THRESHOLD = none →
      (add_entity score st entity label quote s e path).entities =
        st.entities ++ [(entity, ⟨st.entity_id, label, quote⟩)] ∧
      (add_entity score st entity label quote s e path).entity_id = st.entity_id + 1 ∧
      (add_entity score st entity label quote s e path).occurrences =
        st.occurrences ++ [(path, ⟨s, e, entity.toList, st.entity_id⟩)]) ∧
    (FUZZ_THRESHOLD ≤ score "Darcy" "Mr. Darcy" →
      (add_entity score darcyState "Darcy" label quote s e path).entities = darcyState.entities ∧
      (add_entity score darcyState "Darcy" label quote s e path).entity_id = 1 ∧
      (add_entity score darcyState "Darcy" label quote s e path).occurrences =
        [(path, ⟨s, e, "Darcy".toList, 0⟩)]) ∧
    (score "Elizabeth" "Mr. Darcy" < FUZZ_THRESHOLD →
      (add_entity score darcyState "Elizabeth" label quote s e path).entities =
        darcyState.entities ++ [("Elizabeth", ⟨1, label, quote⟩)] ∧
      (add_entity score darcyState "Elizabeth" label quote s e path).entity_id = 2 ∧
      (add_entity score darcyState "Elizabeth" label quote s e path).occurrences =
        [(path, ⟨s, e, "Elizabeth".toList, 1⟩)]) := by
  refine ⟨?_, ?_, ?_, ?_⟩
  · intro k sc h
    rw [add_entity_fold score st entity label quote s e path k sc h]
    exact ⟨rfl, rfl, rfl⟩
  · intro h
    rw [add_entity_new score st entity label quote s e path h]
    exact ⟨rfl, rfl, rfl⟩
  · intro h
    have hstep : extractOne score "Darcy" (darcyState.entities.map Prod.fst) FUZZ_THRESHOLD =
        if FUZZ_THRESHOLD ≤ score "Darcy" "Mr. Darcy" then
          some ("Mr. Darcy", score "Darcy" "Mr. Darcy") else none := rfl
    have he : extractOne score "Darcy" (darcyState.entities.map Prod.fst) FUZZ_THRESHOLD =
        some ("Mr. Darcy", score "Darcy" "Mr. Darcy") := by rw [hstep, if_pos h]
    rw [add_entity_fold score darcyState "Darcy" label quote s e path "Mr. Darcy"
      (score "Darcy" "Mr. Darcy") he]
    refine ⟨rfl, rfl, ?_⟩
    simp [darcyState, entityIdOf]
  · intro h
    have hstep : extractOne score "Elizabeth" (darcyState.entities.map Prod.fst) FUZZ_THRESHOLD =
        if FUZZ_THRESHOLD ≤ score "Elizabeth" "Mr. Darcy" then
          some ("Mr. Darcy", score "Elizabeth" "Mr. Darcy") else none := rfl
    have he : extractOne score "Elizabeth" (darcyState.entities.map Prod.fst) FUZZ_THRESHOLD =
        none := by rw [hstep, if_neg (by omega)]
    rw [add_entity_new score darcyState "Elizabeth" label quote s e path he]
    exact ⟨rfl, rfl, rfl⟩

/-- Witness for C1: with a concrete scorer rating "Darcy" against
"Mr. Darcy" at 90 and everything else at 0, "Darcy" is folded into entity 0
and "Elizabeth" becomes the new entity 1. -/
theorem add_entity_resolution_witness :
    (FUZZ_THRESHOLD ≤ (fun a _ => if a = "Darcy" then (90 : Nat) else 0) "Darcy" "Mr. Darcy" ∧
      (add_entity (fun a _ => if a = "Darcy" then (90 : Nat) else 0) darcyState
        "Darcy" "PERSON" "q" 5 10 "part").occurrences = [("part", ⟨5, 10, "Darcy".toList, 0⟩)]) ∧
    ((fun a _ => if a = "Darcy" then (90 : Nat) else 0) "Elizabeth" "Mr. Darcy" < FUZZ_THRESHOLD ∧
      (add_entity (fun a _ => if a = "Darcy" then (90 : Nat) else 0) darcyState
        "Elizabeth" "PERSON" "q" 5 10 "part").entities =
          darcyState.entities ++ [("Elizabeth", ⟨1, "PERSON", "q"⟩)]) := by
  refine ⟨⟨by decide, ?_⟩, ⟨by decide, ?_⟩⟩
  · exact ((add_entity_resolution (fun a _ => if a = "Darcy" then (90 : Nat) else 0)
      darcyState "Darcy" "PERSON" "q" 5 10 "part").2.2.1 (by decide)).2.2
  · exact ((add_entity_resolution (fun a _ => if a = "Darcy" then (90 : Nat) else 0)
      darcyState "Elizabeth" "PERSON" "q" 5 10 "part").2.2.2 (by decide)).1

/-- **C2.** Every `add_entity` call preserves the Entity-Resolver invariant:
entity ids are 0-based, dense, assigned strictly in increasing first-seen
order (the counter grows by exactly 1 per new entity and ids are never
reused), and every appended occurrence references an id present in the
entity table at the moment it is appended. -/
theorem add_entity_invariant (score : String → String → Nat) (st : XRayEPUB)
    (entity label quote : String) (s e : Nat) (path : String)
    (h : XRayInv st) : XRayInv (add_entity score st entity label quote s e path) := by
  obtain ⟨hids, hocc⟩ := h
  cases hm : extractOne score entity (st.entities.map Prod.fst) FUZZ_THRESHOLD with
  | some pr =>
    obtain ⟨k, sc⟩ := pr
    have hk : k ∈ st.entities.map Prod.fst :=
      extractOne_mem score entity (st.entities.map Prod.fst) FUZZ_THRESHOLD k sc hm
    have hlt : entityIdOf st.entities k < st.entity_id :=
      entityIdOf_lt st.entities st.entity_id k hids hk
    rw [add_entity_fold score st entity label quote s e path k sc hm]
    refine ⟨hids, ?_⟩
    intro o ho
    simp only [List.mem_append, List.mem_singleton] at ho
    rcases ho with ho | ho
    · exact hocc o ho
    · rw [ho]
      exact hlt
  | none =>
    rw [add_entity_new score st entity label quote s e path hm]
    constructor
    · show (st.entities ++ [(entity, (⟨st.entity_id, label, quote⟩ : EntityData))]).map
          (fun p => p.2.id) = List.range (st.entity_id + 1)
      rw [List.map_append, hids, List.range_succ]
      rfl
    · intro o ho
      show o.2.entityId < st.entity_id + 1
      simp only [List.mem_append, List.mem_singleton] at ho
      rcases ho with ho | ho
      · have := hocc o ho
        omega
      · rw [ho]
        exact Nat.lt_succ_self st.entity_id

/-- Witness for C2: the invariant holds of the concrete one-entity state and
is preserved when a below-threshold candidate is added. -/
theorem add_entity_invariant_witness :
    XRayInv darcyState ∧
    XRayInv (add_entity (fun _ _ => 0) darcyState "Elizabeth" "PERSON" "q" 5 10 "part") := by
  have h0 : XRayInv darcyState := by
    refine ⟨by decide, ?_⟩
    intro o ho
    simp [darcyState] at ho
  exact ⟨h0, add_entity_invariant (fun _ _ => 0) darcyState "Elizabeth" "PERSON" "q" 5 10 "part" h0⟩

/-! ## Cut-and-splice rewrite theorems -/

theorem pySlice_length (l : List Char) (a b : Nat) (hb : b ≤ l.length) :
    (pySlice l a b).length = b - a := by
  unfold pySlice
  rw [List.length_drop, List.length_take, Nat.min_eq_left hb]

theorem pySlice_append_take (A B : List Char) (n : Nat) :
    pySlice (A ++ B) A.length (A.length + n) = B.take n := by
  unfold pySlice
  rw [List.take_append, List.drop_left]

theorem recoverGo_insertGo (body : List Char) :
    ∀ (occs : List Occ) (pref : List Char) (lastEnd : Nat),
      validOccs body lastEnd occs = true →
      recoverGo (pref ++ insertGo body occs lastEnd) occs lastEnd pref.length =
        occs.map (fun o => (o.start, o.stop, o.entity)) := by
  intro occs
  induction occs with
  | nil => intro pref lastEnd h; rfl
  | cons o rest ih =>
    intro pref lastEnd h
    simp only [validOccs, Bool.and_eq_true, decide_eq_true_eq, beq_iff_eq] at h
    obtain ⟨⟨⟨⟨h1, h2⟩, h3⟩, h4⟩, h5⟩ := h
    have hstart_le : o.start ≤ body.length := le_trans h2 h3
    have hchunk : (pySlice body lastEnd o.start).length = o.start - lastEnd :=
      pySlice_length body lastEnd o.start hstart_le
    have hentlen : o.entity.length = o.stop - o.start := by
      rw [h4]
      exact pySlice_length body o.start o.stop h3
    have hout : pref ++ insertGo body (o :: rest) lastEnd =
        (pref ++ pySlice body lastEnd o.start ++ anchorOpen o.entityId) ++
        (o.entity ++ (anchorClose ++ insertGo body rest o.stop)) := by
      simp only [insertGo, anchorElem]
      simp [List.append_assoc]
    have hAlen : (pref ++ pySlice body lastEnd o.start ++ anchorOpen o.entityId).length =
        pref.length + (o.start - lastEnd) + (anchorOpen o.entityId).length := by
      simp [List.length_append, hchunk]
      omega
    have ht : pySlice (pref ++ insertGo body (o :: rest) lastEnd)
        (pref.length + (o.start - lastEnd) + (anchorOpen o.entityId).length)
        (pref.length + (o.start - lastEnd) + (anchorOpen o.entityId).length + (o.stop - o.start)) =
        o.entity := by
      rw [hout, ← hAlen, pySlice_append_take, ← hentlen]
      exact List.take_left o.entity (anchorClose ++ insertGo body rest o.stop)
    have hrec : pref.length + (o.start - lastEnd) + (anchorOpen o.entityId).length + lastEnd -
        pref.length - (anchorOpen o.entityId).length = o.start := by
      omega
    have hsum : o.start + o.entity.length = o.stop := by
      rw [hentlen]; omega
    have hout2 : pref ++ insertGo body (o :: rest) lastEnd =
        (pref ++ pySlice body lastEnd o.start ++ anchorElem o) ++ insertGo body rest o.stop := by
      simp only [insertGo, anchorElem]
      simp [List.append_assoc]
    have hplen : (pref ++ pySlice body lastEnd o.start ++ anchorElem o).length =
        pref.length + (o.start - lastEnd) + (anchorOpen o.entityId).length +
          (o.stop - o.start) + anchorClose.length := by
      simp [List.length_append, hchunk, anchorElem, hentlen]
      omega
    have htail : recoverGo (pref ++ insertGo body (o :: rest) lastEnd) rest o.stop
        (pref.length + (o.start - lastEnd) + (anchorOpen o.entityId).length +
          (o.stop - o.start) + anchorClose.length) =
        rest.map (fun o => (o.start, o.stop, o.entity)) := by
      have hih := ih (pref ++ pySlice body lastEnd o.start ++ anchorElem o) o.stop h5
      rw [hout2, ← hplen]
      exact hih
    simp only [recoverGo, List.map_cons]
    rw [ht, hrec, hsum, htail]

/-- **C3.** For every base buffer and every well-formed occurrence list
(non-overlapping, sorted ascending by start, offsets against the original
buffer, each text the literal slice it names), the cut-and-splice rewrite
emits untouched text, marker, …, untouched tail, so that locating each
inserted marker's wrapped text in the output reproduces exactly the original
`(start, end, literal_text)` triples; and for an empty occurrence list the
buffer is unchanged. -/
theorem insert_anchor_offsets (body : List Char) (occs : List Occ)
    (h : validOccs body 0 occs = true) :
    recoverTriples (insert_anchor_elements body occs) occs =
      occs.map (fun o => (o.start, o.stop, o.entity)) ∧
    insert_anchor_elements body [] = body := by
  constructor
  · have hmain := recoverGo_insertGo body occs [] 0 h
    simpa [recoverTriples, insert_anchor_elements] using hmain
  · simp [insert_anchor_elements, insertGo]

/-- Witness for C3 at a concrete buffer with two occurrences. -/
theorem insert_anchor_offsets_witness :
    validOccs "Hello Darcy and Emma.".toList 0
      [⟨6, 11, "Darcy".toList, 0⟩, ⟨16, 20, "Emma".toList, 1⟩] = true ∧
    recoverTriples
      (insert_anchor_elements "Hello Darcy and Emma.".toList
        [⟨6, 11, "Darcy".toList, 0⟩, ⟨16, 20, "Emma".toList, 1⟩])
      [⟨6, 11, "Darcy".toList, 0⟩, ⟨16, 20, "Emma".toList, 1⟩] =
      [(6, 11, "Darcy".toList), (16, 20, "Emma".toList)] := by
  refine ⟨by decide, ?_⟩
  have h := (insert_anchor_offsets "Hello Darcy and Emma.".toList
    [⟨6, 11, "Darcy".toList, 0⟩, ⟨16, 20, "Emma".toList, 1⟩] (by decide)).1
  rw [h]
  decide

/-! ## Segment extraction theorems -/

theorem scanGo_lb_pairwise :
    ∀ (fuel : Nat) (l : List Nat) (pos : Nat),
      (∀ x ∈ scanGo fuel l pos, pos ≤ x.1) ∧
      List.Pairwise (fun a b : Nat × List Nat => a.1 + a.2.length + 2 ≤ b.1)
        (scanGo fuel l pos) := by
  intro fuel
  induction fuel with
  | zero => intro l pos; simp [scanGo]
  | succ f ih =>
    intro l pos
    cases l with
    | nil => simp [scanGo]
    | cons b rest =>
      by_cases hb : b = 62
      · subst hb
        have hstep : scanGo (f + 1) (62 :: rest) pos =
            if (runOf rest).length ≠ 0 ∧ (rest.drop (runOf rest).length).head? = some 60 then
              (pos, runOf rest) :: scanGo f (rest.drop ((runOf rest).length + 1))
                (pos + (runOf rest).length + 2)
            else scanGo f rest (pos + 1) := rfl
        rw [hstep]
        by_cases hc : (runOf rest).length ≠ 0 ∧
            (rest.drop (runOf rest).length).head? = some 60
        · rw [if_pos hc]
          obtain ⟨ihlb, ihpw⟩ := ih (rest.drop ((runOf rest).length + 1))
            (pos + (runOf rest).length + 2)
          constructor
          · intro x hx
            simp only [List.mem_cons] at hx
            rcases hx with hx | hx
            · rw [hx]
            · have := ihlb x hx
              omega
          · rw [List.pairwise_cons]
            constructor
            · intro x hx
              have := ihlb x hx
              simp only
              omega
            · exact ihpw
        · rw [if_neg hc]
          obtain ⟨ihlb, ihpw⟩ := ih rest (pos + 1)
          exact ⟨fun x hx => le_trans (Nat.le_succ pos) (ihlb x hx), ihpw⟩
      · have hstep : scanGo (f + 1) (b :: rest) pos =
            if b = 62 then
              if (runOf rest).length ≠ 0 ∧ (rest.drop (runOf rest).length).head? = some 60 then
                (pos, runOf rest) :: scanGo f (rest.drop ((runOf rest).length + 1))
                  (pos + (runOf rest).length + 2)
              else scanGo f rest (pos + 1)
            else scanGo f rest (pos + 1) := rfl
        rw [hstep, if_neg hb]
        obtain ⟨ihlb, ihpw⟩ := ih rest (pos + 1)
        exact ⟨fun x hx => le_trans (Nat.le_succ pos) (ihlb x hx), ihpw⟩

/-- **C6.** Every extractor emits segments whose start offsets are
monotonically non-decreasing and whose ranges
`[start, start + length of text)` are pairwise disjoint (each start is at or
beyond the previous segment's end).  For the binary path this holds of every
byte buffer; the JSON path yields the converter's entries verbatim, so it
preserves the property its external input carries. -/
theorem segments_ordered :
    (∀ html : List Nat,
      List.Pairwise (fun a b : Nat × List Nat => a.1 + a.2.length ≤ b.1) (parse_mobi html)) ∧
    (∀ entries : List (Nat × String),
      parse_kfx entries = entries ∧
      (List.Pairwise (fun a b : Nat × String => a.1 + a.2.length ≤ b.1) entries →
        List.Pairwise (fun a b : Nat × String => a.1 + a.2.length ≤ b.1)
          (parse_kfx entries))) := by
  constructor
  · intro html
    unfold parse_mobi
    rw [List.pairwise_map]
    have := (scanGo_lb_pairwise (html.length + 1) html 0).2
    exact this.imp (by intro a b h; simp only; omega)
  · intro entries
    have hid : parse_kfx entries = entries := by
      unfold parse_kfx
      simp
    exact ⟨hid, fun h => by rw [hid]; exact h⟩

/-- Witness for C6's conditional half at a concrete ordered entry list. -/
theorem segments_ordered_witness :
    List.Pairwise (fun a b : Nat × String => a.1 + a.2.length ≤ b.1) [(0, "ab"), (5, "cd")] ∧
    List.Pairwise (fun a b : Nat × String => a.1 + a.2.length ≤ b.1)
      (parse_kfx [(0, "ab"), (5, "cd")]) := by
  refine ⟨by decide, ?_⟩
  exact (segments_ordered.2 [(0, "ab"), (5, "cd")]).2 (by decide)

/-! ## Named-entity location theorems -/

theorem fbmGo_none (text tok : List Char) :
    ∀ (fuel i : Nat), firstBoundaryMatchGo text tok fuel i = none →
      ∀ j, i ≤ j → j < i + fuel → neCond text tok j = false := by
  intro fuel
  induction fuel with
  | zero => intro i h j hj1 hj2; omega
  | succ f ih =>
    intro i h j hj1 hj2
    have hstep : firstBoundaryMatchGo text tok (f + 1) i =
        if neCond text tok i then some i else firstBoundaryMatchGo text tok f (i + 1) := rfl
    rw [hstep] at h
    by_cases hc : neCond text tok i = true
    · rw [if_pos hc] at h
      exact absurd h (by simp)
    · have hcf : neCond text tok i = false := by
        simp only [Bool.not_eq_true] at hc; exact hc
      rw [if_neg (by simp [hcf])] at h
      by_cases hji : j = i
      · rw [hji]; exact hcf
      · exact ih (i + 1) h j (by omega) (by omega)

theorem fbmGo_some (text tok : List Char) :
    ∀ (fuel i r : Nat), firstBoundaryMatchGo text tok fuel i = some r →
      neCond text tok r = true ∧ ∀ j, i ≤ j → j < r → neCond text tok j = false := by
  intro fuel
  induction fuel with
  | zero => intro i r h; simp [firstBoundaryMatchGo] at h
  | succ f ih =>
    intro i r h
    have hstep : firstBoundaryMatchGo text tok (f + 1) i =
        if neCond text tok i then some i else firstBoundaryMatchGo text tok f (i + 1) := rfl
    rw [hstep] at h
    by_cases hc : neCond text tok i = true
    · rw [if_pos hc] at h
      have hri : i = r := by simpa using h
      rw [← hri]
      exact ⟨hc, fun j hj1 hj2 => by omega⟩
    · have hcf : neCond text tok i = false := by
        simp only [Bool.not_eq_true] at hc; exact hc
      rw [if_neg (by simp [hcf])] at h
      obtain ⟨hr, hbefore⟩ := ih (i + 1) r h
      refine ⟨hr, fun j hj1 hj2 => ?_⟩
      by_cases hji : j = i
      · rw [hji]; exact hcf
      · exact hbefore j (by omega) hj2

theorem matchAt_false_beyond (text tok : List Char) (htok : tok ≠ []) (j : Nat)
    (hj : text.length ≤ j) : matchAt text tok j = false := by
  unfold matchAt
  have hdrop : text.drop j = [] := List.drop_eq_nil_of_le hj
  rw [hdrop]
  cases tok with
  | nil => exact absurd rfl htok
  | cons a l => simp

theorem fbm_none_all (text tok : List Char) (htok : tok ≠ [])
    (h : firstBoundaryMatch text tok = none) : ∀ j, neCond text tok j = false := by
  intro j
  by_cases hj : j ≤ text.length
  · exact fbmGo_none text tok (text.length + 1) 0 h j (Nat.zero_le j) (by omega)
  · have hm : matchAt text tok j = false :=
      matchAt_false_beyond text tok htok j (by omega)
    simp [neCond, hm]

/-- **C9.** Per tagged span of `find_named_entity`: a span shorter than 3
characters or already seen verbatim in the same segment is skipped outright;
a remaining span with no word-boundary literal match in the segment is
silently dropped — no error, the remaining spans are still processed (the
span still enters the dedup set first); a recorded span is located at the
first word-boundary match position of its text in the segment. -/
theorem find_named_entity_span_semantics (score : String → String → Nat) (start : Nat)
    (text : List Char) (isBytes : Bool) (token label : String)
    (rest : List (String × String)) (records : List String) (st : NEState) :
    (token.length < 3 ∨ token ∈ records →
      findNEGo score start text isBytes ((token, label) :: rest) records st =
        findNEGo score start text isBytes rest records st) ∧
    (¬(token.length < 3 ∨ token ∈ records) →
      (firstBoundaryMatch text token.toList = none →
        findNEGo score start text isBytes ((token, label) :: rest) records st =
          findNEGo score start text isBytes rest (records ++ [token]) st ∧
        ∀ j, neCond text token.toList j = false) ∧
      (∀ i, firstBoundaryMatch text token.toList = some i →
        neCond text token.toList i = true ∧
        (∀ j, j < i → neCond text token.toList j = false) ∧
        findNEGo score start text isBytes ((token, label) :: rest) records st =
          findNEGo score start text isBytes rest (records ++ [token])
            (neSearch score st token label
              (start + (if isBytes then utf8Length (text.take i) else i))
              (if isBytes then utf8Length token.toList else token.length)
              (String.mk (text.drop i))))) := by
  have hstep : findNEGo score start text isBytes ((token, label) :: rest) records st =
      if token.length < 3 ∨ token ∈ records then
        findNEGo score start text isBytes rest records st
      else
        match firstBoundaryMatch text token.toList with
        | none => findNEGo score start text isBytes rest (records ++ [token]) st
        | some i =>
          findNEGo score start text isBytes rest (records ++ [token])
            (neSearch score st token label
              (start + (if isBytes then utf8Length (text.take i) else i))
              (if isBytes then utf8Length token.toList else token.length)
              (String.mk (text.drop i))) := rfl
  refine ⟨?_, ?_⟩
  · intro h
    rw [hstep, if_pos h]
  · intro h
    have htok : token.toList ≠ [] := by
      intro hnil
      rcases not_or.1 h with ⟨h1, _⟩
      have hlen : token.length = token.toList.length := rfl
      rw [hnil] at hlen
      simp at hlen
      omega
    refine ⟨?_, ?_⟩
    · intro hm
      refine ⟨?_, fbm_none_all text token.toList htok hm⟩
      rw [hstep, if_neg h, hm]
    · intro i hm
      obtain ⟨hcond, hbefore⟩ := fbmGo_some text token.toList (text.length + 1) 0 i hm
      refine ⟨hcond, fun j hj => hbefore j (Nat.zero_le j) hj, ?_⟩
      rw [hstep, if_neg h, hm]

/-- Witness for C9: in segment "Hello Bob" the span "Bob" passes the
filters, is first located at position 6, and the loop records it there. -/
theorem find_named_entity_span_semantics_witness :
    (¬("Bob".length < 3 ∨ "Bob" ∈ ([] : List String))) ∧
    firstBoundaryMatch "Hello Bob".toList "Bob".toList = some 6 ∧
    neCond "Hello Bob".toList "Bob".toList 6 = true ∧
    (∀ j, j < 6 → neCond "Hello Bob".toList "Bob".toList j = false) ∧
    findNEGo (fun _ _ => 0) 1000 "Hello Bob".toList false [("Bob", "PERSON")] []
        ⟨0, [], []⟩ =
      findNEGo (fun _ _ => 0) 1000 "Hello Bob".toList false [] ["Bob"]
        (neSearch (fun _ _ => 0) ⟨0, [], []⟩ "Bob" "PERSON"
          (1000 + (if false then utf8Length ("Hello Bob".toList.take 6) else 6))
          (if false then utf8Length "Bob".toList else "Bob".length)
          (String.mk ("Hello Bob".toList.drop 6))) := by
  have h := ((find_named_entity_span_semantics (fun _ _ => 0) 1000 "Hello Bob".toList false
    "Bob" "PERSON" [] [] ⟨0, [], []⟩).2 (by decide)).2 6 (by decide)
  exact ⟨by decide, by decide, h.1, h.2.1, h.2.2⟩

set_option maxRecDepth 20000 in
/-- **C4.** End-to-end: on a byte buffer whose `>` sits at byte offset 1000
followed by "The Wizard of Oz lived in Kansas.<", the extractor yields the
single segment (1001, those bytes) — which are exactly the UTF-8 bytes of
the decoded segment text — and, when the tagger returns the single span
("Wizard of Oz", "PERSON"), the entity locator records exactly one
occurrence (start 1005, end 1017, "Wizard of Oz", entity id 0). -/
theorem wizard_end_to_end :
    parse_mobi wizardHtml = [(1001, asciiBytes wizardSeg)] ∧
    utf8Encode wizardSeg.toList = asciiBytes wizardSeg ∧
    find_named_entity (fun _ _ => 0) 1001 wizardSeg.toList true
        [("Wizard of Oz", "PERSON")] ⟨0, [], []⟩ =
      ⟨1, [("Wizard of Oz", ⟨0, "PERSON", "Wizard of Oz lived in Kansas."⟩)],
        [⟨1005, 1017, "Wizard of Oz".toList, 0⟩]⟩ := by
  refine ⟨by decide, by decide, by decide⟩

/-! ## Lemma indexing theorems -/

theorem caseEquiv_map_toLower :
    ∀ (l1 l2 : List Char), caseEquiv l1 l2 = true →
      l1.map Char.toLower = l2.map Char.toLower := by
  intro l1
  induction l1 with
  | nil =>
    intro l2 h
    cases l2 with
    | nil => rfl
    | cons b bs => simp [caseEquiv] at h
  | cons a as ih =>
    intro l2 h
    cases l2 with
    | nil => simp [caseEquiv] at h
    | cons b bs =>
      simp only [caseEquiv, Bool.and_eq_true, beq_iff_eq] at h
      simp [List.map_cons, h.1, ih bs h.2]

/-- **C10.** `find_lemma` lowercases each matched token and removes soft
hyphens before the morphological lookup, so two tokens of a segment that
differ only in letter case or in embedded soft hyphens share one lookup key
and resolve to the same lemma record or both miss, while each recorded
offset is still computed from the token's own start position in the
original unmodified segment text. -/
theorem find_lemma_normalisation {α : Type} (morphy : String → Option String)
    (lemmas : List (String × α)) (start : Nat) (text : List Char) (isBytes : Bool)
    (i1 i2 : Nat) (t1 t2 : List Char)
    (h1 : (i1, t1) ∈ tokenize text) (h2 : (i2, t2) ∈ tokenize text)
    (heq : tokensEquiv t1 t2 = true) :
    normKey t1 = normKey t2 ∧
    (∃ r : Option α,
      processToken morphy lemmas start text isBytes (i1, t1) =
        r.map (fun d => (start + (if isBytes then utf8Length (text.take i1) else i1), d)) ∧
      processToken morphy lemmas start text isBytes (i2, t2) =
        r.map (fun d => (start + (if isBytes then utf8Length (text.take i2) else i2), d))) ∧
    find_lemma morphy lemmas start text isBytes =
      (tokenize text).filterMap (processToken morphy lemmas start text isBytes) := by
  have hkey : normKey t1 = normKey t2 :=
    caseEquiv_map_toLower _ _ heq
  have hpt : ∀ (i : Nat) (t : List Char),
      processToken morphy lemmas start text isBytes (i, t) =
        (lookupRes morphy lemmas t).map
          (fun d => (start + (if isBytes then utf8Length (text.take i) else i), d)) := by
    intro i t
    unfold processToken lookupRes
    cases morphy (String.mk (normKey t)) with
    | none => rfl
    | some lem =>
      show (match lemmas.find? (fun p => p.1 == lem) with
          | some p => some (start + (if isBytes then utf8Length (text.take i) else i), p.2)
          | none => none) =
        Option.map (fun d => (start + (if isBytes then utf8Length (text.take i) else i), d))
          ((lemmas.find? (fun p => p.1 == lem)).map (fun p => p.2))
      cases lemmas.find? (fun p => p.1 == lem) with
      | none => rfl
      | some p => rfl
  have hcongr : lookupRes morphy lemmas t1 = lookupRes morphy lemmas t2 := by
    unfold lookupRes
    rw [hkey]
  refine ⟨hkey, ⟨lookupRes morphy lemmas t1, hpt i1 t1, ?_⟩, rfl⟩
  rw [hcongr]
  exact hpt i2 t2

/-- Witness for C10: "Hello" and "hel(soft-hyphen)lo" in one segment share
the key "hello" and hit the same record, at their own offsets. -/
theorem find_lemma_normalisation_witness :
    ((0, "Hello".toList) ∈
      tokenize ("Hello ".toList ++ ("hel".toList ++ softHyphen :: "lo".toList))) ∧
    ((6, "hel".toList ++ softHyphen :: "lo".toList) ∈
      tokenize ("Hello ".toList ++ ("hel".toList ++ softHyphen :: "lo".toList))) ∧
    tokensEquiv "Hello".toList ("hel".toList ++ softHyphen :: "lo".toList) = true ∧
    normKey "Hello".toList = normKey ("hel".toList ++ softHyphen :: "lo".toList) := by
  refine ⟨by decide, by decide, by decide, ?_⟩
  exact (find_lemma_normalisation (fun s => if s = "hello" then some "hello" else none)
    [("hello", 42)] 100 ("Hello ".toList ++ ("hel".toList ++ softHyphen :: "lo".toList)) false
    0 6 "Hello".toList ("hel".toList ++ softHyphen :: "lo".toList)
    (by decide) (by decide) (by decide)).1
